import Mathlib

/-!
Verification of the scavenger media-import tool.

Strings are modelled as `List Char` (`Str`).  Each definition below is a
shallow embedding of the corresponding Go function; doc comments name the
source function.  Stateful components (the destination lock manager, the
run statistics) are embedded as explicit state-passing functions, and
file I/O is embedded through explicit read-event streams.
-/

namespace Scavenger

/-- Strings are modelled as lists of characters. -/
abbrev Str := List Char

/-- View a Lean string literal as a `Str`. -/
def str (s : String) : Str := s.data

/-- Characters trimmed by Go `strings.TrimSpace` (`unicode.IsSpace`),
restricted to the Latin-1 range that can appear in our inputs. -/
def isGoSpace (c : Char) : Bool :=
  c == ' ' || c == '\t' || c == '\n' || c == '\x0b' || c == '\x0c' ||
  c == '\r' || c == '\x85' || c == '\xa0'

/-- Go `strings.TrimSpace`: drop leading and trailing white space. -/
def goTrimSpace (l : Str) : Str :=
  ((l.dropWhile isGoSpace).reverse.dropWhile isGoSpace).reverse

/-- ASCII lower-casing pairs used by Go `unicode.ToLower`. -/
def asciiCasePairs : List (Char × Char) :=
  [('A','a'),('B','b'),('C','c'),('D','d'),('E','e'),('F','f'),('G','g'),
   ('H','h'),('I','i'),('J','j'),('K','k'),('L','l'),('M','m'),('N','n'),
   ('O','o'),('P','p'),('Q','q'),('R','r'),('S','s'),('T','t'),('U','u'),
   ('V','v'),('W','w'),('X','x'),('Y','y'),('Z','z')]

/-- Accented-Latin lower-casing pairs used by Go `unicode.ToLower`,
covering the accented vowels and ñ handled by the normalizer. -/
def accentCasePairs : List (Char × Char) :=
  [('Á','á'),('Ä','ä'),('Â','â'),('Ã','ã'),('À','à'),
   ('É','é'),('Ë','ë'),('Ê','ê'),('Ẽ','ẽ'),('È','è'),
   ('Í','í'),('Ï','ï'),('Î','î'),('Ĩ','ĩ'),('Ì','ì'),
   ('Ó','ó'),('Ö','ö'),('Ô','ô'),('Õ','õ'),('Ò','ò'),
   ('Ú','ú'),('Ü','ü'),('Û','û'),('Ũ','ũ'),('Ù','ù'),
   ('Ñ','ñ')]

/-- Go `strings.ToLowerSpecial(unicode.SpecialCase{}, ·)` on one character,
i.e. plain `unicode.ToLower`, for the character set the program handles. -/
def goToLower (c : Char) : Char :=
  match (asciiCasePairs ++ accentCasePairs).find? (fun p => p.1 == c) with
  | some p => p.2
  | none => c

/-- Go `strings.ToUpper` on one character, for the handled character set. -/
def goToUpper (c : Char) : Char :=
  match (asciiCasePairs ++ accentCasePairs).find? (fun p => p.2 == c) with
  | some p => p.1
  | none => c

/-- The regexp `[áäâãà]` → `a`, `[éëêẽè]` → `e`, `[íïîĩì]` → `i`,
`[óöôõò]` → `o`, `[úüûũù]` → `u`, `[ñ]` → `n` replacements of `normalize`
(main.go, `reSpecialA` … `reSpecialN`), per character. -/
def foldAccent (c : Char) : Char :=
  if ['á','ä','â','ã','à'].contains c then 'a'
  else if ['é','ë','ê','ẽ','è'].contains c then 'e'
  else if ['í','ï','î','ĩ','ì'].contains c then 'i'
  else if ['ó','ö','ô','õ','ò'].contains c then 'o'
  else if ['ú','ü','û','ũ','ù'].contains c then 'u'
  else if c == 'ñ' then 'n'
  else c

/-- Membership in the regexp class `[a-z0-9]` (main.go, `reSpecialNotAlpha`). -/
def isLowerAlnum (c : Char) : Bool :=
  ('a' ≤ c && c ≤ 'z') || ('0' ≤ c && c ≤ '9')

/-- The regexp `[^a-z0-9]` → `" "` replacement of `normalize`, per character. -/
def toSpaceNonAlnum (c : Char) : Char :=
  if isLowerAlnum c then c else ' '

/-- The regexp ` +` → `" "` replacement of `normalize` (main.go,
`reSpecialSpaces`): collapse each run of spaces to a single space. -/
def collapseSpaces : Str → Str
  | [] => []
  | [c] => [c]
  | c :: d :: rest =>
    if c == ' ' && d == ' ' then collapseSpaces (d :: rest)
    else c :: collapseSpaces (d :: rest)

/-- `strings.Replace(·, " ", fileSeparator, -1)` with `fileSeparator = "-"`. -/
def sepSpaces (l : Str) : Str :=
  l.map (fun c => if c == ' ' then '-' else c)

/-- The per-input body of `normalize` (main.go): lower-case, fold accents,
replace non-`[a-z0-9]` by spaces, collapse space runs, trim, and replace
the remaining spaces by the file separator `-`. -/
def normalizeOne (input : Str) : Str :=
  sepSpaces (goTrimSpace (collapseSpaces
    (((input.map goToLower).map foldAccent).map toSpaceNonAlnum)))

/-- Go `strings.Join(parts, sep)`. -/
def goJoin (sep : Str) : List Str → Str
  | [] => []
  | [x] => x
  | x :: y :: rest => x ++ sep ++ goJoin sep (y :: rest)

/-- `normalize(inputs ...string) string` (main.go): each input is trimmed,
empty inputs are skipped, the rest are processed by the per-input body and
joined with the file separator `-`. -/
def normalize (inputs : List Str) : Str :=
  goJoin ['-']
    (inputs.filterMap (fun input =>
      let t := goTrimSpace input
      if t = [] then none else some (normalizeOne t)))

/-- `pick(values ...string) string` (main.go and part_000): the first value
that is non-empty after trimming, itself trimmed; `""` if none is. -/
def pick : List Str → Str
  | [] => []
  | v :: rest =>
    let t := goTrimSpace v
    if t = [] then pick rest else t

/-- Decimal digit character for a value `0 ≤ n ≤ 9`. -/
def digitChar : Nat → Char
  | 0 => '0' | 1 => '1' | 2 => '2' | 3 => '3' | 4 => '4'
  | 5 => '5' | 6 => '6' | 7 => '7' | 8 => '8' | _ => '9'

/-- Numeric value of a decimal digit character. -/
def digitVal (c : Char) : Nat := c.toNat - 48

/-- Membership in the regexp class `\d` (ASCII digits). -/
def isDigit (c : Char) : Bool := '0' ≤ c && c ≤ '9'

/-- Value of a decimal digit string (most significant digit first). -/
def decval (l : Str) : Nat := l.foldl (fun a c => a * 10 + digitVal c) 0

/-- Decimal representation of a natural number, accumulator form with an
explicit recursion bound (any bound above the number suffices). -/
def natReprAux : Nat → Nat → Str → Str
  | 0, _, acc => acc
  | fuel + 1, n, acc =>
    if n < 10 then digitChar n :: acc
    else natReprAux fuel (n / 10) (digitChar (n % 10) :: acc)

/-- Decimal representation of a natural number (Go `strconv.Itoa` on
non-negative values, and the digit part of `fmt` integer verbs). -/
def natRepr (n : Nat) : Str := natReprAux (n + 1) n []

/-- Go `strconv.Itoa` / the `%d` verb for an integer. -/
def intRepr (n : Int) : Str :=
  if n < 0 then '-' :: natRepr n.natAbs else natRepr n.toNat

/-- Zero padding of a natural number to width `w` (the digit part of the
Go `%0wd` verb). -/
def padZeroNat (w : Nat) (n : Nat) : Str :=
  List.replicate (w - (natRepr n).length) '0' ++ natRepr n

/-- The Go `%0wd` verb for an integer: sign, then zero padding to width. -/
def padZero (w : Nat) (n : Int) : Str :=
  if n < 0 then '-' :: padZeroNat (w - 1) n.natAbs else padZeroNat w n.toNat

/-- The Go `%02d` verb. -/
def pad2 (n : Int) : Str := padZero 2 n

/-- The Go `%03d` verb applied to the loop counter of `processFile`
(part_000), which is never negative. -/
def pad3 (i : Nat) : Str := padZeroNat 3 i

/-- `strconv.Atoi`: optional sign, a non-empty run of decimal digits, and
a 64-bit range check; `none` models a parse error. -/
def goAtoi (s : Str) : Option Int :=
  let core : Str → Option Nat := fun l =>
    if l ≠ [] && l.all isDigit then some (decval l) else none
  match s with
  | '+' :: rest => (core rest).bind (fun n =>
      if n ≤ 9223372036854775807 then some (Int.ofNat n) else none)
  | '-' :: rest => (core rest).bind (fun n =>
      if n ≤ 9223372036854775808 then some (-(Int.ofNat n)) else none)
  | l => (core l).bind (fun n =>
      if n ≤ 9223372036854775807 then some (Int.ofNat n) else none)

/-- Helper for Go `path.Ext`: scan the reversed path, collecting the
characters after the last dot of the last path element. -/
def scanExtRev : Str → Str → Str
  | [], _ => []
  | c :: rest, acc =>
    if c == '/' then []
    else if c == '.' then '.' :: acc
    else scanExtRev rest (c :: acc)

/-- Go `path.Ext`: the suffix of the last path element beginning at its
final dot, or the empty string. -/
def goPathExt (p : Str) : Str := scanExtRev p.reverse []

/-- Go `path.Base`: the last element of the path after removing trailing
slashes; `"."` for the empty path, `"/"` for a path of only slashes. -/
def goPathBase (p : Str) : Str :=
  if p = [] then ['.']
  else
    let q := p.reverse.dropWhile (fun c => c == '/')
    if q = [] then ['/']
    else (q.takeWhile (fun c => c != '/')).reverse

/-- Go `strings.HasPrefix(s, pre)`. -/
def goStartsWith (s pre : Str) : Bool := s.take pre.length == pre

/-- `pathSeparator`-joining of path segments (`strings.Join(·, "/")`),
with `os.PathSeparator = '/'`. -/
def joinPath (parts : List Str) : Str := goJoin ['/'] parts

/-- Characters the normalizer can emit: `[a-z0-9]` or the separator `-`. -/
def isNormChar (c : Char) : Bool := isLowerAlnum c || c == '-'

/-- The printable characters the idempotence claim quantifies over:
printable ASCII plus the handled accented-Latin letters of either case. -/
def handledChar (c : Char) : Bool :=
  (' ' ≤ c && c ≤ '~') ||
  (asciiCasePairs ++ accentCasePairs).any (fun p => p.1 == c || p.2 == c)

/-- Equality of `Except` results is decidable when both sides are. -/
instance exceptDecEq {ε α : Type} [DecidableEq ε] [DecidableEq α] :
    DecidableEq (Except ε α) := fun x y =>
  match x, y with
  | .ok a, .ok b =>
    if h : a = b then isTrue (by rw [h])
    else isFalse (fun hc => h (Except.ok.inj hc))
  | .error a, .error b =>
    if h : a = b then isTrue (by rw [h])
    else isFalse (fun hc => h (Except.error.inj hc))
  | .ok _, .error _ => isFalse (fun hc => Except.noConfusion hc)
  | .error _, .ok _ => isFalse (fun hc => Except.noConfusion hc)

/-- Error values of the program (`errUnknownFile`, `errMissingCreateTime`,
`errNotADirectory`, and the I/O errors returned by the standard library). -/
inductive GoErr
  | unknownFile
  | missingCreateTime
  | notADirectory
  | ioError
deriving DecidableEq

/-- Tag maps (`map[string]string`) are modelled as association lists with
distinct keys; `lookupTag` is the comma-ok lookup form. -/
abbrev TagMap := List (Str × Str)

/-- `v, ok := tags[k]` on a tag map. -/
def lookupTag (tags : TagMap) (k : Str) : Option Str :=
  (tags.find? (fun p => p.1 == k)).map Prod.snd

/-- `tags[k]` on a tag map: the zero value `""` when the key is absent. -/
def tagVal (tags : TagMap) (k : Str) : Str := (lookupTag tags k).getD []

/-- An instant of Go `time.Time`, in the `time.Local` location modelled
as UTC: days since 1970-01-01 plus seconds within the day. -/
structure GoTime where
  days : Int
  secs : Int
deriving DecidableEq

/-- Days from 1970-01-01 to the civil date `y-m-d` (for `1 ≤ m ≤ 12` and
an arbitrary, possibly out-of-range, day `d`), as computed by Go
`time.Date` when it normalizes its arguments. -/
def daysFromCivil (y m d : Int) : Int :=
  let y' := if m ≤ 2 then y - 1 else y
  let era := Int.ediv y' 400
  let yoe := y' - era * 400
  let mp := if m > 2 then m - 3 else m + 9
  let doy := (153 * mp + 2) / 5 + d - 1
  let doe := yoe * 365 + yoe / 4 - yoe / 100 + doy
  era * 146097 + doe - 719468

/-- The civil date `(year, month, day)` of a count of days since
1970-01-01 (the inverse used by the `Year`/`Month`/`Day` accessors). -/
def civilFromDays (z : Int) : Int × Int × Int :=
  let z' := z + 719468
  let era := Int.ediv z' 146097
  let doe := z' - era * 146097
  let yoe := (doe - doe / 1460 + doe / 36524 - doe / 146096) / 365
  let y := yoe + era * 400
  let doy := doe - (365 * yoe + yoe / 4 - yoe / 100)
  let mp := (5 * doy + 2) / 153
  let d := doy - (153 * mp + 2) / 5 + 1
  let m := if mp < 10 then mp + 3 else mp - 9
  (if m ≤ 2 then y + 1 else y, m, d)

/-- Go `time.Date(y, m, d, h, mi, s, 0, time.Local)` with `time.Local`
modelled as UTC: normalize the month into the year, then convert to an
absolute instant, carrying overflowing seconds into days. -/
def mkGoDate (y m d h mi s : Int) : GoTime :=
  let ym := y * 12 + (m - 1)
  let y' := Int.ediv ym 12
  let m' := Int.emod ym 12 + 1
  let rawDays := daysFromCivil y' m' d
  let rawSecs := h * 3600 + mi * 60 + s
  ⟨rawDays + Int.ediv rawSecs 86400, Int.emod rawSecs 86400⟩

/-- `t.IsZero()`: the instant equals January 1, year 1, 00:00:00. -/
def GoTime.isZero (t : GoTime) : Bool :=
  t.days == daysFromCivil 1 1 1 && t.secs == 0

/-- `t.Year()`. -/
def GoTime.year (t : GoTime) : Int := (civilFromDays t.days).1

/-- `t.Month()` as its numeric value. -/
def GoTime.month (t : GoTime) : Int := (civilFromDays t.days).2.1

/-- `t.Day()`. -/
def GoTime.day (t : GoTime) : Int := (civilFromDays t.days).2.2

/-- `t.Weekday()` as its numeric value (Sunday = 0); 1970-01-01 was a
Thursday. -/
def GoTime.weekday (t : GoTime) : Int := Int.emod (t.days + 4) 7

/-- `t.Hour()`. -/
def GoTime.hour (t : GoTime) : Int := t.secs / 3600

/-- `t.Minute()`. -/
def GoTime.minute (t : GoTime) : Int := t.secs / 60 % 60

/-- `t.Second()`. -/
def GoTime.second (t : GoTime) : Int := t.secs % 60

/-- `time.Month.String()` for the normalized month numbers 1–12. -/
def monthName (m : Int) : Str :=
  if m == 1 then str "January" else if m == 2 then str "February"
  else if m == 3 then str "March" else if m == 4 then str "April"
  else if m == 5 then str "May" else if m == 6 then str "June"
  else if m == 7 then str "July" else if m == 8 then str "August"
  else if m == 9 then str "September" else if m == 10 then str "October"
  else if m == 11 then str "November" else str "December"

/-- `time.Weekday.String()` for the weekday numbers 0–6. -/
def weekdayName (w : Int) : Str :=
  if w == 0 then str "Sunday" else if w == 1 then str "Monday"
  else if w == 2 then str "Tuesday" else if w == 3 then str "Wednesday"
  else if w == 4 then str "Thursday" else if w == 5 then str "Friday"
  else str "Saturday"

/-- Attempt to match the regexp
`(\d{4}):(\d{2}):(\d{2}) (\d{2}):(\d{2}):(\d{2})` (`reDateTime`) at the
head of the string, returning the six captured numbers. -/
def dtMatchAt : Str → Option (Int × Int × Int × Int × Int × Int)
  | y1 :: y2 :: y3 :: y4 :: c1 :: o1 :: o2 :: c2 :: d1 :: d2 :: sp ::
      h1 :: h2 :: c3 :: i1 :: i2 :: c4 :: s1 :: s2 :: _ =>
    if isDigit y1 && isDigit y2 && isDigit y3 && isDigit y4 && c1 == ':' &&
       isDigit o1 && isDigit o2 && c2 == ':' &&
       isDigit d1 && isDigit d2 && sp == ' ' &&
       isDigit h1 && isDigit h2 && c3 == ':' &&
       isDigit i1 && isDigit i2 && c4 == ':' &&
       isDigit s1 && isDigit s2 then
      some (Int.ofNat (decval [y1, y2, y3, y4]),
            Int.ofNat (decval [o1, o2]),
            Int.ofNat (decval [d1, d2]),
            Int.ofNat (decval [h1, h2]),
            Int.ofNat (decval [i1, i2]),
            Int.ofNat (decval [s1, s2]))
    else none
  | _ => none

/-- `reDateTime.FindAllStringSubmatch(s, -1)` restricted to its first
match: the leftmost position where the date-time pattern matches. -/
def findDateTime : Str → Option (Int × Int × Int × Int × Int × Int)
  | [] => none
  | c :: rest =>
    match dtMatchAt (c :: rest) with
    | some t => some t
    | none => findDateTime rest

/-- The ordered candidate date fields of `getExifCreateDate` (part_000). -/
def dateTimeFields : List Str :=
  [str "DateAndTimeOriginal",
   str "DateTimeOriginal",
   str "Date/TimeOriginal",
   str "CreateDate",
   str "MediaCreateDate",
   str "TrackCreateDate",
   str "FileModificationDateTime",
   str "FileAccessDateTime"]

/-- The field loop of `getExifCreateDate` (part_000, lines 362–395): for
each candidate field in order, an absent field is skipped; a present field
whose value does not match `reDateTime` yields `errMissingCreateTime`
immediately; a match with year 0, or one whose `time.Date` is the zero
time, is skipped; any other match is returned. -/
def createDateLoop : List Str → TagMap → Except GoErr GoTime
  | [], _ => .error .missingCreateTime
  | f :: rest, tags =>
    match lookupTag tags f with
    | none => createDateLoop rest tags
    | some taken =>
      match findDateTime taken with
      | none => .error .missingCreateTime
      | some (y, mo, d, h, mi, s) =>
        if y = 0 then createDateLoop rest tags
        else
          let t := mkGoDate y mo d h mi s
          if t.isZero then createDateLoop rest tags
          else .ok t

/-- `getExifCreateDate(tags)` (part_000): run the field loop over the
fixed candidate list. -/
def getExifCreateDate (tags : TagMap) : Except GoErr GoTime :=
  createDateLoop dateTimeFields tags

/-- Modelled from the spec: `normalizeFilename`, the Filename Normalizer
called by `guessFileDestination` in part_000, is not among the provided
source files; §4.3 of the spec describes it as, for each non-empty input
after trimming, lower-casing, folding the fixed accented set to ASCII,
replacing characters outside `[a-z0-9]` by spaces, collapsing space runs,
trimming, and joining with the fixed separator `-`, which is exactly the
`normalize` function of main.go applied to a single input. -/
def normalizeFilename (s : Str) : Str := normalize [s]

/-- `guessFileDestination(srcFile, dstDir)` (part_000, lines 402–487),
with the external tag extraction `getExifData(srcFile)` passed in as
`tagsResult` (`.error e` when the tag reader failed, in which case a nil
tag map is used if `acceptAll` is set). -/
def guessFileDestination (acceptAll : Bool) (tagsResult : Except GoErr TagMap)
    (srcFile dstDir : Str) : Except GoErr Str :=
  match tagsResult, acceptAll with
  | .error e, false => .error e
  | te, _ =>
    let tags : TagMap := match te with | .ok t => t | .error _ => []
    let fileExtension := ((goPathExt srcFile).map goToLower).dropWhile (fun c => c == '.')
    match lookupTag tags (str "Track") with
    | some trackv =>
      let artist := normalizeFilename (pick [tagVal tags (str "Artist"), str "Unknown Artist"])
      let album := normalizeFilename (pick [tagVal tags (str "Album"), str "Unknown Album"])
      let title := pick [tagVal tags (str "Title"), str "Unknown Title"]
      let last :=
        match goAtoi trackv with
        | some trackN => pad2 trackN ++ '_' :: title ++ '.' :: fileExtension
        | none => title ++ '.' :: fileExtension
      .ok (joinPath [dstDir, artist, album, last])
    | none =>
      let guessedVendor := pick
        [tagVal tags (str "Manufacturer"), tagVal tags (str "Make"),
         tagVal tags (str "VendorID"), tagVal tags (str "HandlerVendorID"),
         tagVal tags (str "CompressorName"), tagVal tags (str "HandlerType")]
      let vendorPath : Option Str :=
        if guessedVendor ≠ [] then
          let guessedDevice := pick
            [tagVal tags (str "CameraID"), tagVal tags (str "CameraModelName"),
             tagVal tags (str "Model"), tagVal tags (str "CompressorName"),
             tagVal tags (str "SoftwareVersion"), tagVal tags (str "HandlerDescription")]
          let vd : Str × Str :=
            if guessedVendor = str ".GoPro AVC encoder" then (str "GoPro", str "HERO")
            else (guessedVendor, guessedDevice)
          match getExifCreateDate tags with
          | .ok t =>
            some (joinPath
              [dstDir, normalizeFilename vd.1, normalizeFilename (pick [vd.2, str "Other"]),
               intRepr t.year,
               pad2 t.month ++ '_' :: monthName t.month,
               pad2 t.day ++ '_' :: weekdayName t.weekday,
               pad2 t.hour ++ 'H' :: pad2 t.minute ++ 'M' :: '.' :: fileExtension])
          | .error _ => none
        else none
      match vendorPath with
      | some p => .ok p
      | none =>
        let baseFile0 := goPathBase srcFile
        let baseFile := baseFile0.take (baseFile0.length - fileExtension.length - 1)
        .ok (joinPath
          [dstDir, str "Other",
           normalizeFilename (pick [(goPathExt srcFile).map goToUpper, str "Unknown"]),
           baseFile ++ '.' :: fileExtension])

/-- Hexadecimal digit character for a value `0 ≤ n ≤ 15` (the `%x` verb). -/
def hexDigit : Nat → Char
  | 0 => '0' | 1 => '1' | 2 => '2' | 3 => '3' | 4 => '4'
  | 5 => '5' | 6 => '6' | 7 => '7' | 8 => '8' | 9 => '9'
  | 10 => 'a' | 11 => 'b' | 12 => 'c' | 13 => 'd' | 14 => 'e' | _ => 'f'

/-- One byte as two lowercase hex digits (the `%x` verb on a byte slice). -/
def hexByte (b : Nat) : Str := [hexDigit (b / 16 % 16), hexDigit (b % 16)]

/-- `fmt.Sprintf("%x", bs)` for a byte slice. -/
def hexEncode (bs : List Nat) : Str := (bs.map hexByte).flatten

/-- The result of one `os.File.Read` call on an opened file: a successful
read returning these bytes, end of file (`n = 0, io.EOF`, the behavior of
`os.File` on regular files), or a failing read. -/
inductive ReadEvent
  | chunk (bs : List Nat)
  | eofEv
  | failEv
deriving DecidableEq

/-- The byte sequence delivered by the successful reads of an event list. -/
def eventData : List ReadEvent → List Nat
  | [] => []
  | .chunk bs :: rest => bs ++ eventData rest
  | _ :: rest => eventData rest

/-- `fileHash` (part_000, lines 199–221), after a successful open: read
into an 8192-byte buffer in a loop; `io.EOF` returns the hex digest of the
bytes written so far, any other read error is returned as an I/O error,
and a successful read appends `chunk[:n]` to the digest state.  The SHA-1
digest itself is passed in as the function `digest`; an exhausted event
list behaves as end of file. -/
def fileHashStream (digest : List Nat → List Nat) :
    List ReadEvent → List Nat → Except GoErr Str
  | [], acc => .ok (hexEncode (digest acc))
  | .eofEv :: _, acc => .ok (hexEncode (digest acc))
  | .failEv :: _, _ => .error .ioError
  | .chunk bs :: rest, acc => fileHashStream digest rest (acc ++ bs)

/-- The chunk loop of `fileHash` (main.go, lines 184–190): for each of the
pre-computed chunk indices, allocate a zeroed buffer of
`min(8192, size - i*8192)` bytes, issue one read whose count and error are
ignored, and feed the whole buffer to the digest. -/
def chunkLoop (size : Nat) : Nat → Nat → List ReadEvent → List Nat → List Nat
  | 0, _, _, acc => acc
  | n + 1, i, events, acc =>
    let csize := min 8192 (size - i * 8192)
    let bs : List Nat :=
      match events.head? with
      | some (.chunk l) => l
      | _ => []
    let buf := bs.take csize ++ List.replicate (csize - min csize bs.length) 0
    chunkLoop size n (i + 1) events.tail (acc ++ buf)

/-- `fileHash` (main.go, lines 163–193), after a successful open and stat
of a file of `size` bytes: `math.Ceil(size/8192)` iterations of the chunk
loop, then the hex digest; read errors never surface. -/
def fileHashChunked (digest : List Nat → List Nat) (size : Nat)
    (events : List ReadEvent) : Except GoErr Str :=
  .ok (hexEncode (digest (chunkLoop size ((size + 8191) / 8192) 0 events [])))

/-- The contents of a file split into the 8192-byte blocks in which both
hashers consume it. -/
def chunksOf8192 : List Nat → List (List Nat)
  | [] => []
  | c :: rest => (c :: rest).take 8192 :: chunksOf8192 ((c :: rest).drop 8192)
  termination_by l => l.length
  decreasing_by simp [List.length_drop]; omega

/-- The read events seen by either hasher when every read succeeds and
returns the full remaining block: the 8192-byte blocks of the contents,
followed by end of file. -/
def fullReadEvents (content : List Nat) : List ReadEvent :=
  (chunksOf8192 content).map ReadEvent.chunk ++ [ReadEvent.eofEv]

/-- The state of `fileLocker` (part_000, lines 52–90), with ghost
information for verification: `table` is the claimed-path set
(`map[string]bool`) annotated with the claiming task, `watchers` maps a
path to its registered watcher channels, `nextCh` generates fresh channel
identities, and `signaled` logs every send performed by `Unlock`. -/
structure LockerState where
  table : List (Str × Nat)
  watchers : List (Str × List Nat)
  nextCh : Nat
  signaled : List Nat

/-- The paths currently present in the lock table. -/
def tablePaths (st : LockerState) : List Str := st.table.map Prod.fst

/-- The watcher channels currently registered for a path. -/
def watchersOf (st : LockerState) (p : Str) : List Nat :=
  ((st.watchers.find? (fun e => e.1 == p)).map Prod.snd).getD []

/-- `fileLocker.AcquireLock(s)` (part_000, lines 58–66), performed by task
`t`: under the mutex, return `false` if `s` is in the table, otherwise
insert it and return `true`. -/
def acquireLock (st : LockerState) (t : Nat) (p : Str) : LockerState × Bool :=
  if (st.table.find? (fun e => e.1 == p)).isSome then (st, false)
  else (⟨(p, t) :: st.table, st.watchers, st.nextCh, st.signaled⟩, true)

/-- `append(f.watchers[s], c)` followed by the map store. -/
def watchersAppend : List (Str × List Nat) → Str → Nat → List (Str × List Nat)
  | [], p, c => [(p, [c])]
  | (q, l) :: rest, p, c =>
    if q == p then (q, l ++ [c]) :: rest else (q, l) :: watchersAppend rest p c

/-- `fileLocker.WatchUnlock(s)` (part_000, lines 68–75): create a fresh
channel, register it as a watcher of `s`, and return it. -/
def watchUnlock (st : LockerState) (p : Str) : LockerState × Nat :=
  (⟨st.table, watchersAppend st.watchers p st.nextCh, st.nextCh + 1, st.signaled⟩,
   st.nextCh)

/-- `fileLocker.Unlock(s)` (part_000, lines 77–85): send on every watcher
channel of `s`, then delete `s` from the table and from the watcher map. -/
def unlock (st : LockerState) (p : Str) : LockerState :=
  ⟨st.table.filter (fun e => !(e.1 == p)),
   st.watchers.filter (fun e => !(e.1 == p)),
   st.nextCh,
   st.signaled ++ watchersOf st p⟩

/-- The operations through which tasks use the lock manager. -/
inductive LockOp
  | tryClaim (t : Nat) (p : Str)
  | awaitRelease (p : Str)
  | release (p : Str)

/-- Apply one lock-manager operation (each one is a single mutex-guarded
critical section, so concurrent histories are their interleavings). -/
def applyOp (st : LockerState) : LockOp → LockerState
  | .tryClaim t p => (acquireLock st t p).1
  | .awaitRelease p => (watchUnlock st p).1
  | .release p => unlock st p

/-- The initial `fileLocks` value: empty table, empty watcher map. -/
def initLocker : LockerState := ⟨[], [], 0, []⟩

/-- The lock-manager state reached by a sequence of operations. -/
def runOps (ops : List LockOp) : LockerState := ops.foldl applyOp initLocker

/-- The candidate path built at index `i` of the suffix loop of
`processFile` (part_000, line 520):
`dstFileDir + "/" + Sprintf("%s-%03d", dstFileBase, i) + dstFileExt`. -/
def mkSuffixed (dir base ext : Str) (i : Nat) : Str :=
  dir ++ '/' :: (base ++ '-' :: (pad3 i ++ ext))

/-- The un-suffixed candidate destination: `dir + "/" + base + ext`,
i.e. the `dstFile` resolved by `guessFileDestination` before the loop. -/
def unsuffixed (dir base ext : Str) : Str := dir ++ '/' :: (base ++ ext)

/-- What happens to one file in the collision loop. -/
inductive PlaceOutcome
  | placed (p : Str)
  | duplicate (p : Str)
  | ioErrorOut
deriving DecidableEq

/-- The suffix loop of `processFile` (part_000, lines 519–576), for one
task against a fixed disk (path → content hash) and lock set, in the
sequential (uncontended) execution model: at index `i`, if the candidate
is not on disk and unclaimed it is claimed and final; if it is not on disk
but claimed, the task waits for the release and then hashes the candidate,
which in this static model is still absent, so `fileHash` fails; if it is
on disk, equal hashes make it a duplicate and different hashes advance the
loop.  `fuel` bounds the iterations; `none` means the bound was hit. -/
def suffixLoop (srcHash : Str) (disk : List (Str × Str)) (locked : List Str)
    (dir base ext : Str) : Nat → Nat → Option PlaceOutcome
  | 0, _ => none
  | fuel + 1, i =>
    let cand := mkSuffixed dir base ext i
    match lookupTag disk cand with
    | none =>
      if locked.contains cand then some .ioErrorOut
      else some (.placed cand)
    | some dstHash =>
      if srcHash == dstHash then some (.duplicate cand)
      else suffixLoop srcHash disk locked dir base ext fuel (i + 1)

/-- Sequential dispatch of the collision loop for a list of files (given
by their content hashes) that all resolved to the same candidate base
path: each placed file is copied, so its candidate appears on disk with
the source's hash before the next file runs. -/
def runSeq (dir base ext : Str) :
    List Str → List (Str × Str) → List PlaceOutcome × List (Str × Str)
  | [], disk => ([], disk)
  | h :: rest, disk =>
    match suffixLoop h disk [] dir base ext (disk.length + 1) 0 with
    | some (.placed c) =>
      let r := runSeq dir base ext rest ((c, h) :: disk)
      (PlaceOutcome.placed c :: r.1, r.2)
    | some o =>
      let r := runSeq dir base ext rest disk
      (o :: r.1, r.2)
    | none => ([], disk)

/-- The run-statistics map of `Stats` (part_001): counter kind → count. -/
abbrev StatsMap := List (Nat × Nat)

/-- `Stats.Count(t, i)` (part_001): insert a zero entry if absent, then
add `i`. -/
def statsCount : StatsMap → Nat → Nat → StatsMap
  | [], t, i => [(t, i)]
  | (k, v) :: rest, t, i =>
    if k == t then (k, v + i) :: rest else (k, v) :: statsCount rest t i

/-- `Stats.Get(t)` (part_001): zero when the counter was never touched. -/
def statsGet (s : StatsMap) (t : Nat) : Nat :=
  ((s.find? (fun e => e.1 == t)).map Prod.snd).getD 0

/-- The counter kinds (part_000, lines 138–146). -/
def statUnknownFiles : Nat := 0
def statDeletedFiles : Nat := 1
def statDuplicatedFiles : Nat := 2
def statSkippedFiles : Nat := 3
def statCopiedFiles : Nat := 4
def statMovedFiles : Nat := 5
def statErroredTasks : Nat := 6

/-- One directory entry returned by `Readdir`. -/
structure DirEntry where
  name : Str
  isDir : Bool

/-- The fate of one directory entry in `processDirectory`. -/
inductive EntryOutcome
  | ignoredHidden
  | recursedInto
  | skippedExtension
  | processedFurther
deriving DecidableEq

/-- The per-entry body of the `processDirectory` loop (part_000, lines
638–671) combined with the extension-restriction check at the head of the
dispatched `processFile` (part_000, lines 493–502): a hidden entry is
skipped by `continue` before any task or recursion; a directory entry is
recursed into; a file entry is dispatched as a task, which first counts
the file as skipped if a non-empty restriction set excludes its
extension. -/
def entryStep (allowHidden : Bool) (restrict : List Str) (srcDir : Str)
    (e : DirEntry) (st : StatsMap) : EntryOutcome × StatsMap :=
  let srcFile := srcDir ++ '/' :: e.name
  let baseName := goPathBase srcFile
  if goStartsWith baseName (str ".") && !allowHidden then (.ignoredHidden, st)
  else if e.isDir then (.recursedInto, st)
  else
    let x := (goPathExt srcFile).map goToLower
    if !restrict.isEmpty && !(restrict.contains x) then
      (.skippedExtension, statsCount st statSkippedFiles 1)
    else (.processedFurther, st)

/-- Ghost invariant of reachable lock-manager states: watcher-map keys
are distinct, registered channels are distinct within and across paths,
every registered or signaled channel is below the freshness counter, and
no still-registered channel has already been signaled. -/
abbrev LockerInv (st : LockerState) : Prop :=
  (st.watchers.map Prod.fst).Nodup ∧
  ((st.watchers.map Prod.snd).flatten).Nodup ∧
  (∀ c ∈ (st.watchers.map Prod.snd).flatten, c < st.nextCh ∧ c ∉ st.signaled) ∧
  (∀ c ∈ st.signaled, c < st.nextCh)

/-! Theorems. -/

theorem statsGet_cons_self (l : StatsMap) (t v : Nat) :
    statsGet ((t, v) :: l) t = v := by
  simp [statsGet, List.find?]

theorem statsGet_cons_ne (l : StatsMap) (q t v : Nat) (h : (q == t) = false) :
    statsGet ((q, v) :: l) t = statsGet l t := by
  simp [statsGet, List.find?, h]

theorem statsGet_count_self (st : StatsMap) (t i : Nat) :
    statsGet (statsCount st t i) t = statsGet st t + i := by
  induction st with
  | nil =>
    simp [statsCount, statsGet_cons_self, statsGet, List.find?]
  | cons e rest ih =>
    obtain ⟨k, v⟩ := e
    by_cases h : k = t
    · subst h
      simp [statsCount, statsGet_cons_self]
    · have hb : (k == t) = false := beq_eq_false_iff_ne.mpr h
      simp [statsCount, hb, statsGet_cons_ne, ih]

theorem statsGet_count_other (st : StatsMap) (t i k : Nat) (hk : k ≠ t) :
    statsGet (statsCount st t i) k = statsGet st k := by
  have hb : (t == k) = false := beq_eq_false_iff_ne.mpr (Ne.symm hk)
  induction st with
  | nil =>
    simp [statsCount]
    rw [statsGet_cons_ne _ _ _ _ hb]
  | cons e rest ih =>
    obtain ⟨q, v⟩ := e
    by_cases h : q = t
    · subst h
      simp [statsCount, statsGet_cons_ne, hb]
    · have hq : (q == t) = false := beq_eq_false_iff_ne.mpr h
      by_cases h2 : q = k
      · subst h2
        simp [statsCount, hq, statsGet_cons_self]
      · have hq2 : (q == k) = false := beq_eq_false_iff_ne.mpr h2
        simp [statsCount, hq, hq2, statsGet_cons_ne, ih]

/-- C9: when the allow-hidden flag is off, a directory entry whose base
name starts with `.` is skipped by `processDirectory` before any task is
dispatched or any recursion happens, and every run-statistics counter is
left unchanged — in particular the skipped counter is not incremented,
unlike for a file excluded by a non-empty extension-restriction set,
which is dispatched and counted as skipped. -/
theorem processDirectory_hidden_skip
    (srcDir : Str) (e e2 : DirEntry) (st st2 : StatsMap) (restrict : List Str)
    (hh : goStartsWith (goPathBase (srcDir ++ '/' :: e.name)) (str ".") = true)
    (h2hidden : goStartsWith (goPathBase (srcDir ++ '/' :: e2.name)) (str ".") = false)
    (h2file : e2.isDir = false)
    (h2restrict : restrict.isEmpty = false)
    (h2ext : ((goPathExt (srcDir ++ '/' :: e2.name)).map goToLower) ∉ restrict) :
    (entryStep false restrict srcDir e st).1 = .ignoredHidden ∧
    (∀ k, statsGet (entryStep false restrict srcDir e st).2 k = statsGet st k) ∧
    (entryStep false restrict srcDir e2 st2).1 = .skippedExtension ∧
    statsGet (entryStep false restrict srcDir e2 st2).2 statSkippedFiles
      = statsGet st2 statSkippedFiles + 1 ∧
    (∀ k, k ≠ statSkippedFiles →
      statsGet (entryStep false restrict srcDir e2 st2).2 k = statsGet st2 k) := by
  refine ⟨?_, ?_, ?_, ?_, ?_⟩
  · simp [entryStep, hh]
  · intro k; simp [entryStep, hh]
  · simp [entryStep, h2hidden, h2file, h2restrict, h2ext]
  · simp [entryStep, h2hidden, h2file, h2restrict, h2ext, statsGet_count_self]
  · intro k hk
    simp [entryStep, h2hidden, h2file, h2restrict, h2ext, statsGet_count_other _ _ _ _ hk]

theorem processDirectory_hidden_skip_witness :
    (entryStep false [str ".jpg"] (str "src") ⟨str ".git", false⟩ []).1
        = EntryOutcome.ignoredHidden ∧
    (entryStep false [str ".jpg"] (str "src") ⟨str "a.txt", false⟩ []).1
        = EntryOutcome.skippedExtension := by
  have h := processDirectory_hidden_skip (str "src") ⟨str ".git", false⟩
    ⟨str "a.txt", false⟩ [] [] [str ".jpg"]
    (by decide) (by decide) (by decide) (by decide) (by decide)
  exact ⟨h.1, h.2.2.1⟩

theorem find?_key_isSome {α : Type} (l : List (Str × α)) (p : Str) :
    (l.find? (fun e => e.1 == p)).isSome = true ↔ p ∈ l.map Prod.fst := by
  induction l with
  | nil =>
    constructor
    · intro h; exact Bool.noConfusion h
    · intro h; cases h
  | cons e rest ih =>
    obtain ⟨q, v⟩ := e
    by_cases h : q = p
    · subst h
      rw [List.find?_cons_of_pos _ (by simp), List.map_cons]
      constructor
      · intro _; exact List.mem_cons_self _ _
      · intro _; rfl
    · have hb : (q == p) = false := beq_eq_false_iff_ne.mpr h
      rw [List.find?_cons_of_neg _ (by simp [hb]), List.map_cons, List.mem_cons, ih]
      constructor
      · intro hm; exact Or.inr hm
      · intro hm
        rcases hm with hm | hm
        · exact absurd hm.symm h
        · exact hm

theorem find?_filter_key_none {α : Type} (l : List (Str × α)) (p : Str) :
    ((l.filter (fun e => !(e.1 == p))).find? (fun e => e.1 == p)) = none := by
  rw [List.find?_eq_none]
  intro x hx
  have hm := (List.mem_filter.mp hx).2
  simp only [Bool.not_eq_true'] at hm
  simp [hm]

theorem applyOp_nodup (st : LockerState) (op : LockOp)
    (h : (tablePaths st).Nodup) : (tablePaths (applyOp st op)).Nodup := by
  cases op with
  | tryClaim t p =>
    by_cases hp : (st.table.find? (fun e => e.1 == p)).isSome = true
    · simp [applyOp, acquireLock, hp, h]
    · have hmem : p ∉ st.table.map Prod.fst := fun hc =>
        hp ((find?_key_isSome st.table p).mpr hc)
      have htp : tablePaths (applyOp st (.tryClaim t p)) = p :: tablePaths st := by
        simp [applyOp, acquireLock, hp, tablePaths]
      rw [htp]
      exact List.nodup_cons.mpr ⟨hmem, h⟩
  | awaitRelease p => exact h
  | release p =>
    have hsub : (st.table.filter (fun e => !(e.1 == p))).Sublist st.table :=
      List.filter_sublist st.table
    exact List.Nodup.sublist (hsub.map Prod.fst) h

theorem runOps_tablePaths_nodup (ops : List LockOp) :
    (tablePaths (runOps ops)).Nodup := by
  suffices h : ∀ st : LockerState, (tablePaths st).Nodup →
      (tablePaths (List.foldl applyOp st ops)).Nodup by
    exact h initLocker (by simp [initLocker, tablePaths])
  induction ops with
  | nil => intro st h; exact h
  | cons op rest ih =>
    intro st h
    exact ih (applyOp st op) (applyOp_nodup st op h)

/-- C2: `AcquireLock` (the spec's `TryClaim`) inserts the path into the
lock table exactly when it is absent and reports whether it did; in every
state reachable by lock-manager operations the table paths are distinct,
so each path is claimed by at most one task; a second claim of a held path
fails while the path is held, and succeeds again once it is released. -/
theorem tryClaim_spec (ops : List LockOp) (st : LockerState) (t u : Nat) (p : Str)
    (hst : st = runOps ops) :
    ((acquireLock st t p).2 = true ↔ p ∉ tablePaths st) ∧
    ((acquireLock st t p).2 = true →
      tablePaths (acquireLock st t p).1 = p :: tablePaths st) ∧
    ((acquireLock st t p).2 = false → (acquireLock st t p).1 = st) ∧
    (tablePaths st).Nodup ∧
    (p ∈ tablePaths st → (acquireLock st t p).2 = false) ∧
    (acquireLock (unlock st p) u p).2 = true := by
  have hnodup : (tablePaths st).Nodup := hst ▸ runOps_tablePaths_nodup ops
  by_cases hp : (st.table.find? (fun e => e.1 == p)).isSome = true
  · have hmem : p ∈ tablePaths st := (find?_key_isSome st.table p).mp hp
    refine ⟨?_, ?_, ?_, hnodup, ?_, ?_⟩
    · simp [acquireLock, hp, hmem]
    · simp [acquireLock, hp]
    · simp [acquireLock, hp]
    · intro _; simp [acquireLock, hp]
    · simp [acquireLock, unlock, find?_filter_key_none]
  · have hmem : p ∉ tablePaths st := fun hc =>
      hp ((find?_key_isSome st.table p).mpr hc)
    refine ⟨?_, ?_, ?_, hnodup, ?_, ?_⟩
    · simp [acquireLock, hp, hmem]
    · intro _; simp [acquireLock, hp, tablePaths]
    · simp [acquireLock, hp]
    · intro hc; exact absurd hc hmem
    · simp [acquireLock, unlock, find?_filter_key_none]

theorem tryClaim_spec_witness :
    (acquireLock (runOps [LockOp.tryClaim 0 (str "a")]) 1 (str "a")).2 = false :=
  (tryClaim_spec [LockOp.tryClaim 0 (str "a")]
    (runOps [LockOp.tryClaim 0 (str "a")]) 1 0 (str "a") rfl).2.2.2.2.1 (by decide)

theorem sublist_flatten_mono {α : Type} {l₁ l₂ : List (List α)}
    (h : List.Sublist l₁ l₂) : List.Sublist l₁.flatten l₂.flatten := by
  induction h with
  | slnil => exact List.Sublist.refl _
  | cons a _ ih =>
    rw [List.flatten_cons]
    exact ih.trans (List.sublist_append_right a _)
  | cons₂ a _ ih =>
    rw [List.flatten_cons, List.flatten_cons]
    exact List.Sublist.append_left ih a

theorem subperm_append_left_mono {α : Type} (s : List α) {l₁ l₂ : List α}
    (h : List.Subperm l₁ l₂) : List.Subperm (s ++ l₁) (s ++ l₂) := by
  obtain ⟨m, hm, hs⟩ := h
  exact ⟨s ++ m, List.Perm.append_left s hm, List.Sublist.append_left hs s⟩

theorem watchersAppend_flatten_perm (w : List (Str × List Nat)) (p : Str) (c : Nat) :
    List.Perm ((watchersAppend w p c).map Prod.snd).flatten
      (c :: (w.map Prod.snd).flatten) := by
  induction w with
  | nil => simp [watchersAppend]
  | cons e rest ih =>
    obtain ⟨q, l⟩ := e
    by_cases h : q = p
    · subst h
      simp only [watchersAppend, beq_self_eq_true, if_true, List.map_cons,
        List.flatten_cons, List.append_assoc]
      exact List.perm_middle
    · have hb : (q == p) = false := beq_eq_false_iff_ne.mpr h
      simp only [watchersAppend, hb, Bool.false_eq_true, if_false,
        List.map_cons, List.flatten_cons]
      exact ((List.Perm.append_left l ih).trans List.perm_middle)

theorem watchersAppend_keys_mem (w : List (Str × List Nat)) (p : Str) (c : Nat)
    (x : Str) (hx : x ∈ (watchersAppend w p c).map Prod.fst) :
    x ∈ w.map Prod.fst ∨ x = p := by
  induction w with
  | nil =>
    simp [watchersAppend] at hx
    exact Or.inr hx
  | cons e rest ih =>
    obtain ⟨q, l⟩ := e
    by_cases h : q = p
    · subst h
      simp only [watchersAppend, beq_self_eq_true, if_true, List.map_cons] at hx
      exact Or.inl hx
    · have hb : (q == p) = false := beq_eq_false_iff_ne.mpr h
      simp only [watchersAppend, hb, Bool.false_eq_true, if_false,
        List.map_cons, List.mem_cons] at hx
      rcases hx with hx | hx
      · exact Or.inl (by simp [hx])
      · rcases ih hx with hm | hm
        · exact Or.inl (List.mem_cons_of_mem _ hm)
        · exact Or.inr hm

theorem watchersAppend_keys_nodup (w : List (Str × List Nat)) (p : Str) (c : Nat)
    (h : (w.map Prod.fst).Nodup) : ((watchersAppend w p c).map Prod.fst).Nodup := by
  induction w with
  | nil => simp [watchersAppend]
  | cons e rest ih =>
    obtain ⟨q, l⟩ := e
    rw [List.map_cons] at h
    have hq := List.nodup_cons.mp h
    by_cases hp : q = p
    · subst hp
      simp only [watchersAppend, beq_self_eq_true, if_true, List.map_cons]
      exact h
    · have hb : (q == p) = false := beq_eq_false_iff_ne.mpr hp
      simp only [watchersAppend, hb, Bool.false_eq_true, if_false, List.map_cons]
      refine List.nodup_cons.mpr ⟨?_, ih hq.2⟩
      intro hc
      rcases watchersAppend_keys_mem rest p c q hc with hm | hm
      · exact hq.1 hm
      · exact hp hm

theorem filter_flatten_subperm (w : List (Str × List Nat)) (p : Str) :
    List.Subperm
      (((w.filter (fun e => !(e.1 == p))).map Prod.snd).flatten ++
        ((w.find? (fun e => e.1 == p)).map Prod.snd).getD [])
      ((w.map Prod.snd).flatten) := by
  induction w with
  | nil => simp [List.Subperm.refl]
  | cons e rest ih =>
    obtain ⟨q, l⟩ := e
    by_cases h : q = p
    · subst h
      rw [List.filter_cons_of_neg (by simp), List.find?_cons_of_pos _ (by simp)]
      simp only [Option.map_some, Option.getD_some, List.map_cons, List.flatten_cons]
      have h1 : List.Subperm
          ((List.map Prod.snd (rest.filter (fun e => !(e.1 == q)))).flatten)
          ((List.map Prod.snd rest).flatten) :=
        (List.sublist_append_left _ _).subperm.trans ih
      exact List.perm_append_comm.subperm.trans (subperm_append_left_mono l h1)
    · have hb : (q == p) = false := beq_eq_false_iff_ne.mpr h
      rw [List.filter_cons_of_pos (by simp [hb]), List.find?_cons_of_neg _ (by simp [hb])]
      simp only [List.map_cons, List.flatten_cons, List.append_assoc]
      exact subperm_append_left_mono l ih

theorem watchersOf_sublist (st : LockerState) (p : Str) :
    List.Sublist (watchersOf st p) ((st.watchers.map Prod.snd).flatten) := by
  unfold watchersOf
  cases hf : st.watchers.find? (fun e => e.1 == p) with
  | none => exact List.nil_sublist _
  | some e =>
    show List.Sublist e.2 _
    exact List.sublist_flatten_of_mem
      (List.mem_map_of_mem Prod.snd (List.mem_of_find?_eq_some hf))

theorem applyOp_inv (st : LockerState) (op : LockOp) (h : LockerInv st) :
    LockerInv (applyOp st op) := by
  obtain ⟨hkeys, hflat, hchan, hsig⟩ := h
  cases op with
  | tryClaim t p =>
    by_cases hp : (st.table.find? (fun e => e.1 == p)).isSome = true
    · have he : applyOp st (.tryClaim t p) = st := by
        simp [applyOp, acquireLock, hp]
      rw [he]
      exact ⟨hkeys, hflat, hchan, hsig⟩
    · have he : applyOp st (.tryClaim t p) =
          ⟨(p, t) :: st.table, st.watchers, st.nextCh, st.signaled⟩ := by
        simp [applyOp, acquireLock, hp]
      rw [he]
      exact ⟨hkeys, hflat, hchan, hsig⟩
  | awaitRelease p =>
    have hperm := watchersAppend_flatten_perm st.watchers p st.nextCh
    have hnotin : st.nextCh ∉ (st.watchers.map Prod.snd).flatten := fun hc =>
      absurd (hchan _ hc).1 (lt_irrefl _)
    refine ⟨watchersAppend_keys_nodup _ _ _ hkeys, ?_, ?_, ?_⟩
    · exact hperm.nodup_iff.mpr (List.nodup_cons.mpr ⟨hnotin, hflat⟩)
    · intro c hc
      have hmem := hperm.subset hc
      rcases List.mem_cons.mp hmem with hm | hm
      · subst hm
        exact ⟨Nat.lt_succ_self _, fun hcs => absurd (hsig _ hcs) (lt_irrefl _)⟩
      · exact ⟨Nat.lt_succ_of_lt (hchan _ hm).1, (hchan _ hm).2⟩
    · intro c hc
      exact Nat.lt_succ_of_lt (hsig c hc)
  | release p =>
    have hsubl : List.Sublist
        (((st.watchers.filter (fun e => !(e.1 == p))).map Prod.snd).flatten)
        ((st.watchers.map Prod.snd).flatten) :=
      sublist_flatten_mono ((List.filter_sublist _).map Prod.snd)
    have hsubperm := filter_flatten_subperm st.watchers p
    have hnodup_app : (((st.watchers.filter (fun e => !(e.1 == p))).map Prod.snd).flatten ++
        watchersOf st p).Nodup := by
      obtain ⟨m, hm, hs⟩ := hsubperm
      exact hm.nodup_iff.mp (List.Nodup.sublist hs hflat)
    refine ⟨?_, ?_, ?_, ?_⟩
    · exact List.Nodup.sublist ((List.filter_sublist _).map Prod.fst) hkeys
    · exact List.Nodup.sublist hsubl hflat
    · intro c hc
      have hcm := hsubl.subset hc
      refine ⟨(hchan _ hcm).1, ?_⟩
      intro hcs
      rcases List.mem_append.mp hcs with hm | hm
      · exact (hchan _ hcm).2 hm
      · exact (List.disjoint_of_nodup_append hnodup_app) hc hm
    · intro c hc
      rcases List.mem_append.mp hc with hm | hm
      · exact hsig c hm
      · exact (hchan _ ((watchersOf_sublist st p).subset hm)).1

theorem runOps_inv (ops : List LockOp) : LockerInv (runOps ops) := by
  suffices h : ∀ st : LockerState, LockerInv st →
      LockerInv (List.foldl applyOp st ops) by
    refine h initLocker ?_
    refine ⟨?_, ?_, ?_, ?_⟩ <;> simp [initLocker]
  induction ops with
  | nil => intro st h; exact h
  | cons op rest ih => intro st h; exact ih (applyOp st op) (applyOp_inv st op h)

/-- C3: `Unlock` (the spec's `Release`) removes the path from the lock
table and from the watcher registry, and signals every watcher registered
for that path: in any reachable state, after the release neither the
table nor the watcher map has an entry for the path, and each previously
registered watcher channel carries exactly one signal in the send log,
having carried none before. -/
theorem release_spec (ops : List LockOp) (st : LockerState) (p : Str)
    (hst : st = runOps ops) :
    p ∉ tablePaths (unlock st p) ∧
    ((unlock st p).watchers.find? (fun e => e.1 == p)) = none ∧
    (∀ c ∈ watchersOf st p,
      (unlock st p).signaled.count c = 1 ∧ st.signaled.count c = 0) := by
  have hinv : LockerInv st := hst ▸ runOps_inv ops
  obtain ⟨hkeys, hflat, hchan, hsig⟩ := hinv
  refine ⟨?_, ?_, ?_⟩
  · intro hc
    have := (find?_key_isSome ((unlock st p).table) p).mpr hc
    rw [show (unlock st p).table = st.table.filter (fun e => !(e.1 == p)) from rfl,
      find?_filter_key_none] at this
    exact Bool.noConfusion this
  · exact find?_filter_key_none st.watchers p
  · intro c hc
    have hcflat : c ∈ (st.watchers.map Prod.snd).flatten :=
      (watchersOf_sublist st p).subset hc
    have hnotsig : c ∉ st.signaled := (hchan _ hcflat).2
    have hzero : st.signaled.count c = 0 := List.count_eq_zero.mpr hnotsig
    have hwnodup : (watchersOf st p).Nodup :=
      List.Nodup.sublist (watchersOf_sublist st p) hflat
    constructor
    · rw [show (unlock st p).signaled = st.signaled ++ watchersOf st p from rfl,
        List.count_append, hzero, List.count_eq_one_of_mem hwnodup hc]
    · exact hzero

theorem release_spec_witness :
    (unlock (runOps [LockOp.awaitRelease (str "a")]) (str "a")).signaled.count 0 = 1 :=
  ((release_spec [LockOp.awaitRelease (str "a")]
    (runOps [LockOp.awaitRelease (str "a")]) (str "a") rfl).2.2 0 (by decide)).1

theorem pick_all_empty (vs : List Str) (d : Str)
    (hv : ∀ v ∈ vs, goTrimSpace v = []) :
    pick (vs ++ [d]) = goTrimSpace d := by
  induction vs with
  | nil =>
    by_cases hd : goTrimSpace d = [] <;> simp [pick, hd]
  | cons v rest ih =>
    have hv0 : goTrimSpace v = [] := hv v (List.mem_cons_self _ _)
    rw [List.cons_append]
    show pick (v :: (rest ++ [d])) = goTrimSpace d
    simp only [pick, hv0, if_pos rfl]
    exact ih (fun x hx => hv x (List.mem_cons_of_mem _ hx))

/-- C7: `normalize` skips every input that is empty after trimming, and
when all of the non-default inputs trim to empty, the `pick` that supplies
the default at each `normalize(pick(values..., default))` call site
returns the trimmed default — a non-empty string — rather than an empty
result. -/
theorem normalize_skips_empty_inputs (xs ys : List Str) (e : Str)
    (vs : List Str) (d : Str)
    (he : goTrimSpace e = [])
    (hd : goTrimSpace d ≠ []) :
    normalize (xs ++ e :: ys) = normalize (xs ++ ys) ∧
    ((∀ v ∈ vs, goTrimSpace v = []) →
      pick (vs ++ [d]) = goTrimSpace d ∧ pick (vs ++ [d]) ≠ []) := by
  constructor
  · unfold normalize
    rw [List.filterMap_append, List.filterMap_append, List.filterMap_cons]
    simp [he]
  · intro hv
    rw [pick_all_empty vs d hv]
    exact ⟨rfl, hd⟩

theorem normalize_skips_empty_inputs_witness :
    normalize [str "", str " Band ", str "  "] = normalize [str "", str " Band "] ∧
    (pick [str "", str "  ", str "Unknown Artist"] = goTrimSpace (str "Unknown Artist") ∧
      pick [str "", str "  ", str "Unknown Artist"] ≠ []) := by
  have h := normalize_skips_empty_inputs [str "", str " Band "] [] (str "  ")
    [str "", str "  "] (str "Unknown Artist") (by decide) (by decide)
  exact ⟨h.1, h.2 (by decide)⟩

/-- C8 counterexample: the chunk-counting `fileHash` of main.go ignores
the result of `fh.Read` entirely, so on a 4-byte file whose only read
fails it returns the digest of a zero-filled buffer instead of an I/O
error, refuting the claim for that implementation. -/
theorem fileHash_read_error_counterexample :
    fileHashChunked (fun l => l) 4 [ReadEvent.failEv]
        = .ok (hexEncode [0, 0, 0, 0]) ∧
    fileHashChunked (fun l => l) 4 [ReadEvent.failEv]
        ≠ .error GoErr.ioError := by decide

/-- C8 (amended): the streaming `fileHash` of part_000 returns an I/O
error whenever some read fails before end of file, and when no read fails
it returns the hex digest of exactly the bytes delivered by the reads;
the chunk-counting `fileHash` of main.go does not have this property. -/
theorem fileHashStream_error_spec (digest : List Nat → List Nat)
    (pre post : List ReadEvent) (acc : List Nat)
    (hpre : ∀ e ∈ pre, ∃ bs, e = ReadEvent.chunk bs) :
    fileHashStream digest (pre ++ ReadEvent.failEv :: post) acc
        = .error .ioError ∧
    (∀ rest, fileHashStream digest (pre ++ ReadEvent.eofEv :: rest) acc
        = .ok (hexEncode (digest (acc ++ eventData pre)))) := by
  induction pre generalizing acc with
  | nil => simp [fileHashStream, eventData]
  | cons e pre' ih =>
    obtain ⟨bs, rfl⟩ := hpre e (List.mem_cons_self _ _)
    have ih' := ih (acc ++ bs) (fun x hx => hpre x (List.mem_cons_of_mem _ hx))
    constructor
    · show fileHashStream digest (pre' ++ ReadEvent.failEv :: post) (acc ++ bs) = _
      exact ih'.1
    · intro rest
      show fileHashStream digest (pre' ++ ReadEvent.eofEv :: rest) (acc ++ bs) = _
      rw [ih'.2 rest,
        show eventData (ReadEvent.chunk bs :: pre') = bs ++ eventData pre' from rfl,
        ← List.append_assoc]

theorem fileHashStream_error_spec_witness :
    fileHashStream (fun l => l) [ReadEvent.chunk [1, 2], ReadEvent.failEv] []
        = .error .ioError ∧
    fileHashStream (fun l => l) [ReadEvent.chunk [1, 2], ReadEvent.eofEv] []
        = .ok (hexEncode ([] ++ eventData [ReadEvent.chunk [1, 2]])) := by
  have h := fileHashStream_error_spec (fun l => l) [ReadEvent.chunk [1, 2]] [] []
    (by intro e he; simp at he; exact ⟨[1, 2], he⟩)
  exact ⟨h.1, h.2 []⟩

theorem fileHashStream_chunks_aux (digest : List Nat → List Nat) :
    ∀ n (content : List Nat), content.length ≤ n → ∀ acc : List Nat,
    fileHashStream digest
        ((chunksOf8192 content).map ReadEvent.chunk ++ [ReadEvent.eofEv]) acc
      = .ok (hexEncode (digest (acc ++ content))) := by
  intro n
  induction n with
  | zero =>
    intro content hlen acc
    have hc : content = [] := List.length_eq_zero.mp (Nat.le_zero.mp hlen)
    subst hc
    simp [chunksOf8192, fileHashStream]
  | succ n ih =>
    intro content hlen acc
    match content with
    | [] => simp [chunksOf8192, fileHashStream]
    | c :: rest =>
      rw [chunksOf8192]
      simp only [List.map_cons, List.cons_append]
      show fileHashStream digest _ (acc ++ (c :: rest).take 8192) = _
      rw [ih ((c :: rest).drop 8192) (by simp only [List.length_drop]; omega)
        (acc ++ (c :: rest).take 8192)]
      rw [List.append_assoc, List.take_append_drop]

theorem chunkLoop_spec :
    ∀ n (rem : List Nat), rem.length ≤ n → ∀ (i : Nat) (acc : List Nat),
    chunkLoop (i * 8192 + rem.length) ((rem.length + 8191) / 8192) i
        ((chunksOf8192 rem).map ReadEvent.chunk ++ [ReadEvent.eofEv]) acc
      = acc ++ rem := by
  intro n
  induction n with
  | zero =>
    intro rem hlen i acc
    have hc : rem = [] := List.length_eq_zero.mp (Nat.le_zero.mp hlen)
    subst hc
    simp [chunkLoop, chunksOf8192]
  | succ n ih =>
    intro rem hlen i acc
    match rem with
    | [] => simp [chunkLoop, chunksOf8192]
    | c :: rest =>
      have hlen1 : 1 ≤ (c :: rest).length := by simp
      by_cases hsmall : (c :: rest).length ≤ 8192
      · have hcount : ((c :: rest).length + 8191) / 8192 = 1 := by
          apply Nat.div_eq_of_lt_le <;> omega
        have htake : (c :: rest).take 8192 = c :: rest :=
          List.take_of_length_le hsmall
        have hmin : min 8192 (c :: rest).length = (c :: rest).length :=
          Nat.min_eq_right hsmall
        rw [hcount, chunksOf8192]
        simp only [List.map_cons, List.cons_append, chunkLoop, List.head?_cons,
          List.tail_cons, Nat.add_sub_cancel_left, htake, hmin,
          List.take_length, Nat.min_self, Nat.sub_self, List.replicate_zero,
          List.append_nil]
      · have hcount : ((c :: rest).length + 8191) / 8192
            = (((c :: rest).drop 8192).length + 8191) / 8192 + 1 := by
          rw [List.length_drop]
          have he : (c :: rest).length + 8191
              = ((c :: rest).length - 8192 + 8191) + 8192 := by omega
          rw [he, Nat.add_div_right _ (by omega)]
        have hsz : i * 8192 + (c :: rest).length
            = (i + 1) * 8192 + ((c :: rest).drop 8192).length := by
          simp only [List.length_drop]
          omega
        have hmin : min 8192 (c :: rest).length = 8192 :=
          Nat.min_eq_left (by omega)
        have hlt : (List.take 8192 (c :: rest)).length = 8192 := by
          rw [List.length_take, hmin]
        rw [hcount, chunksOf8192]
        simp only [List.map_cons, List.cons_append, chunkLoop, List.head?_cons,
          List.tail_cons, Nat.add_sub_cancel_left, hmin, hlt, List.take_take,
          Nat.min_self, Nat.sub_self, List.replicate_zero, List.append_nil]
        rw [show i * 8192 + (c :: rest).length
            = (i + 1) * 8192 + ((c :: rest).drop 8192).length from hsz]
        rw [ih ((c :: rest).drop 8192) (by simp only [List.length_drop]; omega) (i + 1)
          (acc ++ (c :: rest).take 8192)]
        rw [List.append_assoc, List.take_append_drop]

/-- C10: under the precondition that every read succeeds and delivers the
full remaining block (encoded by `fullReadEvents`), the chunk-counting
hasher of main.go and the streaming hasher of part_000 both return the
hex digest of exactly the file's byte sequence, and hence agree, for any
digest function and any contents. -/
theorem fileHash_equivalence (digest : List Nat → List Nat) (content : List Nat) :
    fileHashChunked digest content.length (fullReadEvents content)
        = .ok (hexEncode (digest content)) ∧
    fileHashStream digest (fullReadEvents content) []
        = .ok (hexEncode (digest content)) ∧
    fileHashChunked digest content.length (fullReadEvents content)
        = fileHashStream digest (fullReadEvents content) [] := by
  have h1 := chunkLoop_spec content.length content le_rfl 0 []
  rw [Nat.zero_mul, Nat.zero_add, List.nil_append] at h1
  have h2 := fileHashStream_chunks_aux digest content.length content le_rfl []
  rw [List.nil_append] at h2
  refine ⟨?_, h2, ?_⟩
  · unfold fileHashChunked fullReadEvents
    rw [h1]
  · unfold fileHashChunked fullReadEvents
    rw [h1, h2]

/-- C4 counterexample: a present but unparseable first candidate field
makes `getExifCreateDate` fail with `errMissingCreateTime` immediately,
even though a later candidate field holds a parseable date — the search
does not continue as the claim states. -/
theorem getExifCreateDate_counterexample :
    getExifCreateDate [(str "DateAndTimeOriginal", str "garbage"),
                       (str "CreateDate", str "2020:01:02 03:04:05")]
        = .error .missingCreateTime ∧
    getExifCreateDate [(str "CreateDate", str "2020:01:02 03:04:05")]
        = .ok (mkGoDate 2020 1 2 3 4 5) := by decide

theorem createDateLoop_all_absent (fields : List Str) (tags : TagMap)
    (h : ∀ g ∈ fields, lookupTag tags g = none) :
    createDateLoop fields tags = .error .missingCreateTime := by
  induction fields with
  | nil => rfl
  | cons f rest ih =>
    simp only [createDateLoop, h f (List.mem_cons_self _ _)]
    exact ih (fun g hg => h g (List.mem_cons_of_mem _ hg))

theorem createDateLoop_skip_absent (fs1 rest : List Str) (tags : TagMap)
    (h : ∀ g ∈ fs1, lookupTag tags g = none) :
    createDateLoop (fs1 ++ rest) tags = createDateLoop rest tags := by
  induction fs1 with
  | nil => rfl
  | cons f fs ih =>
    rw [List.cons_append]
    simp only [createDateLoop, h f (List.mem_cons_self _ _)]
    exact ih (fun g hg => h g (List.mem_cons_of_mem _ hg))

/-- C4 (amended): the candidate date fields are tried in their fixed
order and absent fields are skipped; but once the first present field is
reached, a value that fails the `YYYY:MM:DD HH:MM:SS` pattern aborts the
whole search with `MissingCreateTime` immediately (it is not treated as
absent); only a match with year 0, or one normalizing to the zero time,
is treated as absent so that the search continues; and exhausting the
list also fails with `MissingCreateTime`. -/
theorem getExifCreateDate_amended (tags : TagMap) (fs1 : List Str) (f : Str)
    (fs2 : List Str)
    (hsplit : dateTimeFields = fs1 ++ f :: fs2)
    (hearlier : ∀ g ∈ fs1, lookupTag tags g = none) :
    ((∀ g ∈ dateTimeFields, lookupTag tags g = none) →
      getExifCreateDate tags = .error .missingCreateTime) ∧
    (∀ v, lookupTag tags f = some v →
      (findDateTime v = none →
        getExifCreateDate tags = .error .missingCreateTime) ∧
      (∀ y mo d h mi s, findDateTime v = some (y, mo, d, h, mi, s) →
        (y = 0 → getExifCreateDate tags = createDateLoop fs2 tags) ∧
        (y ≠ 0 → (mkGoDate y mo d h mi s).isZero = false →
          getExifCreateDate tags = .ok (mkGoDate y mo d h mi s)))) := by
  constructor
  · intro hall
    exact createDateLoop_all_absent dateTimeFields tags hall
  · intro v hv
    have hstep : getExifCreateDate tags = createDateLoop (f :: fs2) tags := by
      rw [getExifCreateDate, hsplit,
        createDateLoop_skip_absent fs1 (f :: fs2) tags hearlier]
    refine ⟨?_, ?_⟩
    · intro hfind
      rw [hstep]
      simp only [createDateLoop, hv, hfind]
    · intro y mo d h mi s hfind
      refine ⟨?_, ?_⟩
      · intro hy
        rw [hstep]
        simp only [createDateLoop, hv, hfind, if_pos hy]
      · intro hy hz
        rw [hstep]
        simp only [createDateLoop, hv, hfind, if_neg hy, hz]
        simp

theorem getExifCreateDate_amended_witness :
    getExifCreateDate [(str "DateTimeOriginal", str "2021:06:05 04:03:02")]
        = .ok (mkGoDate 2021 6 5 4 3 2) := by
  have h := getExifCreateDate_amended
    [(str "DateTimeOriginal", str "2021:06:05 04:03:02")]
    [str "DateAndTimeOriginal"] (str "DateTimeOriginal")
    [str "Date/TimeOriginal", str "CreateDate", str "MediaCreateDate",
     str "TrackCreateDate", str "FileModificationDateTime", str "FileAccessDateTime"]
    (by decide) (by decide)
  exact (((h.2 (str "2021:06:05 04:03:02") (by decide)).2) 2021 6 5 4 3 2
    (by decide)).2 (by decide) (by decide)

/-- C5 counterexample: for tags `{Track: "3", Artist: "Band", Title:
"Song"}` and extension `.mp3`, `guessFileDestination` (part_000) yields
`dest/band/unknown-album/03_Song.mp3` — the title segment is used
verbatim, not lower-cased by the normalizer as the claim's
`dest/band/unknown-album/03_song.mp3` requires. -/
theorem musicDestination_counterexample :
    guessFileDestination false
        (.ok [(str "Track", str "3"), (str "Artist", str "Band"),
              (str "Title", str "Song")])
        (str "song.mp3") (str "dest")
        = .ok (str "dest/band/unknown-album/03_Song.mp3") ∧
    str "dest/band/unknown-album/03_Song.mp3"
        ≠ str "dest/band/unknown-album/03_song.mp3" := by decide

/-- C5 (amended): the resolved path is
`dest/band/unknown-album/03_Song.mp3`: artist and the Unknown-Album
default pass through the normalizer, the track number is zero-padded to
two digits, but the title segment is used verbatim (no normalizer). -/
theorem musicDestination_amended :
    guessFileDestination false
        (.ok [(str "Track", str "3"), (str "Artist", str "Band"),
              (str "Title", str "Song")])
        (str "song.mp3") (str "dest")
        = .ok (joinPath [str "dest", normalizeFilename (str "Band"),
            normalizeFilename (str "Unknown Album"),
            pad2 3 ++ '_' :: (str "Song" ++ '.' :: str "mp3")]) ∧
    joinPath [str "dest", normalizeFilename (str "Band"),
        normalizeFilename (str "Unknown Album"),
        pad2 3 ++ '_' :: (str "Song" ++ '.' :: str "mp3")]
      = str "dest/band/unknown-album/03_Song.mp3" := by decide

theorem natReprAux_acc :
    ∀ fuel n acc, n < fuel →
      natReprAux fuel n acc = natReprAux fuel n [] ++ acc := by
  intro fuel
  induction fuel with
  | zero => intro n acc h; omega
  | succ fuel ih =>
    intro n acc h
    by_cases h10 : n < 10
    · simp [natReprAux, h10]
    · have hd : n / 10 < fuel := by
        have := Nat.div_lt_self (by omega : 0 < n) (by omega : 1 < 10)
        omega
      simp only [natReprAux, h10, if_false]
      rw [ih (n / 10) (digitChar (n % 10) :: acc) hd,
        ih (n / 10) [digitChar (n % 10)] hd, List.append_assoc,
        List.singleton_append]

theorem natReprAux_fuel :
    ∀ f1 f2 n acc, n < f1 → n < f2 →
      natReprAux f1 n acc = natReprAux f2 n acc := by
  intro f1
  induction f1 with
  | zero => intro f2 n acc h; omega
  | succ f1 ih =>
    intro f2 n acc h1 h2
    match f2 with
    | 0 => omega
    | f2 + 1 =>
      by_cases h10 : n < 10
      · simp [natReprAux, h10]
      · have hd1 : n / 10 < f1 := by
          have := Nat.div_lt_self (by omega : 0 < n) (by omega : 1 < 10)
          omega
        have hd2 : n / 10 < f2 := by
          have := Nat.div_lt_self (by omega : 0 < n) (by omega : 1 < 10)
          omega
        simp only [natReprAux, h10, if_false]
        exact ih f2 (n / 10) _ hd1 hd2

theorem natRepr_step (n : Nat) (h : ¬ n < 10) :
    natRepr n = natRepr (n / 10) ++ [digitChar (n % 10)] := by
  have hd : n / 10 < n := Nat.div_lt_self (by omega) (by omega)
  unfold natRepr
  rw [show natReprAux (n + 1) n [] = natReprAux n (n / 10) [digitChar (n % 10)] by
      simp [natReprAux, h]]
  rw [natReprAux_acc n (n / 10) [digitChar (n % 10)] hd]
  rw [natReprAux_fuel n (n / 10 + 1) (n / 10) [] hd (Nat.lt_succ_self _)]

theorem digitVal_digitChar (n : Nat) (h : n < 10) :
    digitVal (digitChar n) = n := by
  interval_cases n <;> rfl

theorem decval_append_digit (l : Str) (c : Char) :
    decval (l ++ [c]) = decval l * 10 + digitVal c := by
  simp [decval, List.foldl_append]

theorem decval_natRepr : ∀ fuel n, n ≤ fuel → decval (natRepr n) = n := by
  intro fuel
  induction fuel with
  | zero =>
    intro n h
    have : n = 0 := by omega
    subst this
    rfl
  | succ fuel ih =>
    intro n h
    by_cases h10 : n < 10
    · have hr : natRepr n = [digitChar n] := by simp [natRepr, natReprAux, h10]
      rw [hr]
      simp only [decval, List.foldl_cons, List.foldl_nil]
      rw [digitVal_digitChar n h10]
      omega
    · have hd : n / 10 ≤ fuel := by
        have := Nat.div_lt_self (by omega : 0 < n) (by omega : 1 < 10)
        omega
      rw [natRepr_step n h10, decval_append_digit, ih (n / 10) hd,
        digitVal_digitChar (n % 10) (Nat.mod_lt n (by omega))]
      omega

theorem decval_replicate_zero (k : Nat) (l : Str) :
    decval (List.replicate k '0' ++ l) = decval l := by
  induction k with
  | zero => rfl
  | succ k ih =>
    rw [List.replicate_succ, List.cons_append]
    show decval (List.replicate k '0' ++ l) = decval l
    exact ih

theorem decval_pad3 (i : Nat) : decval (pad3 i) = i := by
  unfold pad3 padZeroNat
  rw [decval_replicate_zero]
  exact decval_natRepr i i le_rfl

theorem pad3_inj (i j : Nat) (h : pad3 i = pad3 j) : i = j := by
  rw [← decval_pad3 i, ← decval_pad3 j, h]

theorem mkSuffixed_inj (dir base ext : Str) (i j : Nat)
    (h : mkSuffixed dir base ext i = mkSuffixed dir base ext j) : i = j := by
  unfold mkSuffixed at h
  have h1 := List.append_cancel_left h
  injection h1 with _ h2
  have h3 := List.append_cancel_left h2
  injection h3 with _ h4
  exact pad3_inj i j (List.append_cancel_right h4)

theorem pad3_length (i : Nat) : 3 ≤ (pad3 i).length := by
  unfold pad3 padZeroNat
  rw [List.length_append, List.length_replicate]
  omega

theorem mkSuffixed_ne_unsuffixed (dir base ext : Str) (i : Nat) :
    mkSuffixed dir base ext i ≠ unsuffixed dir base ext := by
  intro h
  have hlen := congrArg List.length h
  have h3 := pad3_length i
  simp only [mkSuffixed, unsuffixed, List.length_append, List.length_cons] at hlen
  omega

theorem lookupTag_cons_self (D : List (Str × Str)) (k v : Str) :
    lookupTag ((k, v) :: D) k = some v := by
  simp [lookupTag, List.find?]

theorem lookupTag_cons_ne (D : List (Str × Str)) (k1 v k2 : Str)
    (h : k1 ≠ k2) : lookupTag ((k1, v) :: D) k2 = lookupTag D k2 := by
  have hb : (k1 == k2) = false := beq_eq_false_iff_ne.mpr h
  simp [lookupTag, List.find?, hb]

theorem suffixLoop_finds (h : Str) (disk : List (Str × Str)) (dir base ext : Str)
    (k : Nat) :
    ∀ m i, k = i + m →
    (∀ j, i ≤ j → j < k →
      ∃ g, lookupTag disk (mkSuffixed dir base ext j) = some g ∧ g ≠ h) →
    lookupTag disk (mkSuffixed dir base ext k) = none →
    ∀ fuel, m + 1 ≤ fuel →
    suffixLoop h disk [] dir base ext fuel i
      = some (.placed (mkSuffixed dir base ext k)) := by
  intro m
  induction m with
  | zero =>
    intro i hk _ hfree fuel hfuel
    match fuel with
    | f + 1 =>
      have hik : i = k := by omega
      subst hik
      simp [suffixLoop, hfree]
  | succ m ih =>
    intro i hk hocc hfree fuel hfuel
    match fuel with
    | f + 1 =>
      obtain ⟨g, hg, hgh⟩ := hocc i le_rfl (by omega)
      have hbeq : (h == g) = false := beq_eq_false_iff_ne.mpr (Ne.symm hgh)
      simp only [suffixLoop, hg, hbeq, Bool.false_eq_true, if_false]
      exact ih (i + 1) (by omega)
        (fun j hj1 hj2 => hocc j (by omega) hj2) hfree f (by omega)

theorem runSeq_spec (dir base ext : Str) :
    ∀ (hs : List Str) (k : Nat) (D : List (Str × Str)),
    hs.Nodup →
    (∀ j, j < k →
      ∃ g, lookupTag D (mkSuffixed dir base ext j) = some g ∧ g ∉ hs) →
    (∀ j, k ≤ j → lookupTag D (mkSuffixed dir base ext j) = none) →
    k ≤ D.length →
    (runSeq dir base ext hs D).1
      = (List.range' k hs.length).map
          (fun j => PlaceOutcome.placed (mkSuffixed dir base ext j)) := by
  intro hs
  induction hs with
  | nil => intro k D _ _ _ _; rfl
  | cons h rest ih =>
    intro k D hnd hlow hhigh hkD
    have hnd' := List.nodup_cons.mp hnd
    have hfind := suffixLoop_finds h D dir base ext k k 0 (by omega)
      (fun j _ hjk =>
        (hlow j hjk).imp (fun g hg =>
          ⟨hg.1, fun he => hg.2 (he ▸ List.mem_cons_self h rest)⟩))
      (hhigh k le_rfl) (D.length + 1) (by omega)
    simp only [runSeq, hfind]
    have hrec := ih (k + 1) ((mkSuffixed dir base ext k, h) :: D) hnd'.2
      (fun j hj => by
        by_cases hjk : j = k
        · subst hjk
          exact ⟨h, lookupTag_cons_self D _ h, hnd'.1⟩
        · have hjk' : j < k := by omega
          rw [lookupTag_cons_ne D _ h _
            (fun he => hjk (mkSuffixed_inj dir base ext k j he).symm)]
          exact (hlow j hjk').imp (fun g hg =>
            ⟨hg.1, fun hm => hg.2 (List.mem_cons_of_mem h hm)⟩))
      (fun j hj => by
        rw [lookupTag_cons_ne D _ h _
          (fun he => by
            have := mkSuffixed_inj dir base ext k j he
            omega)]
        exact hhigh j (by omega))
      (by simp; omega)
    rw [hrec]
    rw [show (h :: rest).length = rest.length + 1 from rfl, List.range'_succ,
      List.map_cons]

/-- C1 counterexample: the collision loop of `processFile` (part_000)
starts at suffix index 0, so a single file whose candidate destination
does not exist on disk and is unclaimed is placed at the `-000`-suffixed
path, not at the un-suffixed candidate path as the claim states. -/
theorem collision_loop_counterexample :
    (runSeq (str "dest") (str "photo") (str ".jpg") [str "aa"] []).1
        = [PlaceOutcome.placed (str "dest/photo-000.jpg")] ∧
    str "dest/photo-000.jpg" ≠ str "dest/photo.jpg" := by decide

/-- C1 (amended): for files resolving to the same candidate base path,
processed sequentially with pairwise distinct content hashes against an
initially empty destination, the collision loop appends zero-padded
suffixes `-000`, `-001`, …: the k-th file is placed at suffix index k, so
the occupied suffixes are exactly 0 … N−1 — strictly increasing with no
gaps — and no file is ever placed at the un-suffixed candidate path. -/
theorem collision_loop_amended (hashes : List Str) (dir base ext : Str)
    (hnd : hashes.Nodup) :
    (runSeq dir base ext hashes []).1
      = (List.range hashes.length).map
          (fun j => PlaceOutcome.placed (mkSuffixed dir base ext j)) ∧
    PlaceOutcome.placed (unsuffixed dir base ext)
      ∉ (runSeq dir base ext hashes []).1 := by
  have hmain := runSeq_spec dir base ext hashes 0 [] hnd
    (fun j hj => absurd hj (by omega))
    (fun j _ => rfl) (by simp)
  rw [← List.range_eq_range'] at hmain
  refine ⟨hmain, ?_⟩
  rw [hmain]
  intro hmem
  obtain ⟨j, _, hj⟩ := List.mem_map.mp hmem
  have : mkSuffixed dir base ext j = unsuffixed dir base ext :=
    PlaceOutcome.placed.inj hj
  exact mkSuffixed_ne_unsuffixed dir base ext j this

theorem collision_loop_amended_witness :
    (runSeq (str "dest") (str "photo") (str ".jpg") [str "h1", str "h2"] []).1
        = [PlaceOutcome.placed (str "dest/photo-000.jpg"),
           PlaceOutcome.placed (str "dest/photo-001.jpg")] := by
  have h := collision_loop_amended [str "h1", str "h2"]
    (str "dest") (str "photo") (str ".jpg") (by decide)
  rw [h.1]
  decide

theorem table_first_not_norm :
    ∀ p ∈ asciiCasePairs ++ accentCasePairs, isNormChar p.1 = false := by decide

theorem isGoSpace_eq_false_of_norm (c : Char) (h : isNormChar c = true) :
    isGoSpace c = false := by
  cases hsp : isGoSpace c
  · rfl
  · exfalso
    simp only [isGoSpace, Bool.or_eq_true, beq_iff_eq] at hsp
    rcases hsp with ((((((h1 | h1) | h1) | h1) | h1) | h1) | h1) | h1 <;>
      (subst h1; exact absurd h (by decide))

theorem alnum_ne_space (c : Char) (h : isLowerAlnum c = true) :
    (c == ' ') = false := by
  cases hb : c == ' '
  · rfl
  · rw [beq_iff_eq] at hb
    subst hb
    exact absurd h (by decide)

theorem goToLower_fix (c : Char) (h : isNormChar c = true) : goToLower c = c := by
  have hnone : (asciiCasePairs ++ accentCasePairs).find? (fun p => p.1 == c) = none := by
    rw [List.find?_eq_none]
    intro x hx hbeq
    rw [beq_iff_eq] at hbeq
    subst hbeq
    rw [table_first_not_norm x hx] at h
    exact Bool.noConfusion h
  unfold goToLower
  rw [hnone]

theorem foldAccent_fix (c : Char) (h : isNormChar c = true) : foldAccent c = c := by
  have hgen : ∀ l : List Char, (∀ x ∈ l, isNormChar x = false) →
      (l.contains c) = false := by
    intro l hl
    cases hc : l.contains c
    · rfl
    · exfalso
      have hmem : c ∈ l := by
        obtain ⟨x, hx, hbeq⟩ := List.contains_iff_exists_mem_beq.mp hc
        rw [beq_iff_eq] at hbeq
        subst hbeq
        exact hx
      rw [hl c hmem] at h
      exact Bool.noConfusion h
  have hne : (c == 'ñ') = false := by
    cases hb : c == 'ñ'
    · rfl
    · rw [beq_iff_eq] at hb
      subst hb
      exact absurd h (by decide)
  unfold foldAccent
  rw [hgen _ (by decide), hgen _ (by decide), hgen _ (by decide),
    hgen _ (by decide), hgen _ (by decide), hne]
  simp

theorem dropWhile_decomp (p : Char → Bool) (l : Str) :
    ∃ s, s ++ l.dropWhile p = l := by
  induction l with
  | nil => exact ⟨[], rfl⟩
  | cons c t ih =>
    by_cases h : p c = true
    · obtain ⟨s, hs⟩ := ih
      refine ⟨c :: s, ?_⟩
      rw [List.dropWhile_cons, if_pos h, List.cons_append, hs]
    · exact ⟨[], by rw [List.nil_append, List.dropWhile_cons, if_neg h]⟩

theorem dropWhile_head (p : Char → Bool) (l : Str) (a : Char)
    (h : (l.dropWhile p).head? = some a) : p a = false := by
  induction l with
  | nil => exact absurd h (by simp)
  | cons c t ih =>
    by_cases hc : p c = true
    · rw [List.dropWhile_cons, if_pos hc] at h
      exact ih h
    · rw [List.dropWhile_cons, if_neg hc] at h
      have : c = a := by simpa using h
      subst this
      simpa using hc

theorem dropWhile_subset (p : Char → Bool) (l : Str) :
    ∀ c ∈ l.dropWhile p, c ∈ l := by
  obtain ⟨s, hs⟩ := dropWhile_decomp p l
  intro c hc
  rw [← hs]
  exact List.mem_append_right s hc

theorem goTrim_subset (l : Str) : ∀ c ∈ goTrimSpace l, c ∈ l := by
  intro c hc
  unfold goTrimSpace at hc
  rw [List.mem_reverse] at hc
  have h1 := dropWhile_subset isGoSpace _ _ hc
  rw [List.mem_reverse] at h1
  exact dropWhile_subset isGoSpace _ _ h1

theorem dropWhile_eq_self_of_head (p : Char → Bool) (l : Str)
    (h : ∀ a, l.head? = some a → p a = false) : l.dropWhile p = l := by
  cases l with
  | nil => rfl
  | cons c t =>
    rw [List.dropWhile_cons, if_neg]
    rw [h c rfl]
    exact Bool.noConfusion

theorem goTrim_eq_self (l : Str)
    (hh : ∀ a, l.head? = some a → isGoSpace a = false)
    (hr : ∀ a, l.reverse.head? = some a → isGoSpace a = false) :
    goTrimSpace l = l := by
  unfold goTrimSpace
  rw [dropWhile_eq_self_of_head _ _ hh, dropWhile_eq_self_of_head _ _ hr,
    List.reverse_reverse]

theorem goTrim_revhead (l : Str) (a : Char)
    (h : (goTrimSpace l).reverse.head? = some a) : isGoSpace a = false := by
  unfold goTrimSpace at h
  rw [List.reverse_reverse] at h
  exact dropWhile_head _ _ _ h

theorem goTrim_head (l : Str) (a : Char)
    (h : (goTrimSpace l).head? = some a) : isGoSpace a = false := by
  unfold goTrimSpace at h
  obtain ⟨s, hs⟩ :=
    dropWhile_decomp isGoSpace (List.reverse (l.dropWhile isGoSpace))
  have hl : l.dropWhile isGoSpace
      = ((l.dropWhile isGoSpace).reverse.dropWhile isGoSpace).reverse
        ++ s.reverse := by
    rw [← List.reverse_append, hs, List.reverse_reverse]
  have hfirst : (l.dropWhile isGoSpace).head? = some a := by
    cases he : ((l.dropWhile isGoSpace).reverse.dropWhile isGoSpace).reverse with
    | nil =>
      rw [he] at h
      exact absurd h (by simp)
    | cons x t =>
      rw [he] at h
      rw [hl, he]
      simpa using h
  exact dropWhile_head _ _ _ hfirst

theorem head?_mem_list {l : Str} {a : Char} (h : l.head? = some a) : a ∈ l :=
  List.mem_of_mem_head? (by simp [h])

theorem collapse_sublist (l : Str) : List.Sublist (collapseSpaces l) l := by
  induction l with
  | nil => exact List.Sublist.refl _
  | cons c t ih =>
    cases t with
    | nil => exact List.Sublist.refl _
    | cons d r =>
      by_cases h : (c == ' ' && d == ' ') = true
      · rw [show collapseSpaces (c :: d :: r) = collapseSpaces (d :: r) from by
          simp [collapseSpaces, h]]
        exact ih.trans (List.sublist_cons_self c (d :: r))
      · rw [show collapseSpaces (c :: d :: r) = c :: collapseSpaces (d :: r) from by
          simp only [collapseSpaces, h, Bool.false_eq_true, if_false]]
        exact List.Sublist.cons₂ c ih

theorem collapse_head (l : Str) : ∀ c, (collapseSpaces (c :: l)).head? = some c := by
  induction l with
  | nil => intro c; rfl
  | cons d r ih =>
    intro c
    by_cases h : (c == ' ' && d == ' ') = true
    · have hc : c = ' ' := by
        simp only [Bool.and_eq_true, beq_iff_eq] at h
        exact h.1
      have hd : d = ' ' := by
        simp only [Bool.and_eq_true, beq_iff_eq] at h
        exact h.2
      rw [show collapseSpaces (c :: d :: r) = collapseSpaces (d :: r) from by
        simp [collapseSpaces, h]]
      rw [ih d, hc, hd]
    · rw [show collapseSpaces (c :: d :: r) = c :: collapseSpaces (d :: r) from by
        simp only [collapseSpaces, h, Bool.false_eq_true, if_false]]
      rfl

theorem collapse_chain (l : Str) :
    List.Chain' (fun a b => ¬(a = ' ' ∧ b = ' ')) (collapseSpaces l) := by
  induction l with
  | nil => exact List.chain'_nil
  | cons c t ih =>
    cases t with
    | nil => exact List.chain'_singleton c
    | cons d r =>
      by_cases h : (c == ' ' && d == ' ') = true
      · rw [show collapseSpaces (c :: d :: r) = collapseSpaces (d :: r) from by
          simp [collapseSpaces, h]]
        exact ih
      · rw [show collapseSpaces (c :: d :: r) = c :: collapseSpaces (d :: r) from by
          simp only [collapseSpaces, h, Bool.false_eq_true, if_false]]
        rw [List.chain'_cons']
        refine ⟨?_, ih⟩
        intro y hy
        rw [collapse_head r d] at hy
        have hyd : d = y := by simpa using hy
        subst hyd
        intro hand
        exact h (by simp [hand.1, hand.2])

theorem collapse_eq_self (l : Str)
    (h : List.Chain' (fun a b => ¬(a = ' ' ∧ b = ' ')) l) :
    collapseSpaces l = l := by
  induction l with
  | nil => rfl
  | cons c t ih =>
    cases t with
    | nil => rfl
    | cons d r =>
      rw [List.chain'_cons] at h
      have hcd : (c == ' ' && d == ' ') = false := by
        cases hb : (c == ' ' && d == ' ')
        · rfl
        · exfalso
          simp only [Bool.and_eq_true, beq_iff_eq] at hb
          exact h.1 hb
      rw [show collapseSpaces (c :: d :: r) = c :: collapseSpaces (d :: r) from by
        simp only [collapseSpaces, hcd, Bool.false_eq_true, if_false]]
      rw [ih h.2]

theorem goTrim_chain (l : Str)
    (h : List.Chain' (fun a b => ¬(a = ' ' ∧ b = ' ')) l) :
    List.Chain' (fun a b => ¬(a = ' ' ∧ b = ' ')) (goTrimSpace l) := by
  have hrev : ∀ m : Str, List.Chain' (fun a b => ¬(a = ' ' ∧ b = ' ')) m →
      List.Chain' (fun a b => ¬(a = ' ' ∧ b = ' ')) m.reverse := by
    intro m hm
    rw [List.chain'_reverse]
    exact hm.imp (fun a b hr hand => hr ⟨hand.2, hand.1⟩)
  obtain ⟨s1, hs1⟩ := dropWhile_decomp isGoSpace l
  have h1 := h.suffix ⟨s1, hs1⟩
  obtain ⟨s2, hs2⟩ := dropWhile_decomp isGoSpace (l.dropWhile isGoSpace).reverse
  exact hrev _ ((hrev _ h1).suffix ⟨s2, hs2⟩)

theorem toSpace_class (a : Char) :
    isLowerAlnum (toSpaceNonAlnum a) = true ∨ toSpaceNonAlnum a = ' ' := by
  unfold toSpaceNonAlnum
  by_cases h : isLowerAlnum a = true
  · rw [if_pos h]
    exact Or.inl h
  · rw [if_neg h]
    exact Or.inr rfl

theorem normalizeOne_canonical (t : Str) :
    ∃ z : Str,
      normalizeOne t = sepSpaces z ∧
      (∀ c ∈ z, isLowerAlnum c = true ∨ c = ' ') ∧
      List.Chain' (fun a b => ¬(a = ' ' ∧ b = ' ')) z ∧
      (∀ a, z.head? = some a → a ≠ ' ') ∧
      (∀ a, z.reverse.head? = some a → a ≠ ' ') := by
  refine ⟨goTrimSpace (collapseSpaces
    (((t.map goToLower).map foldAccent).map toSpaceNonAlnum)), rfl, ?_, ?_, ?_, ?_⟩
  · intro c hc
    have h1 := goTrim_subset _ _ hc
    have h2 := (collapse_sublist _).subset h1
    obtain ⟨a, _, ha⟩ := List.mem_map.mp h2
    rw [← ha]
    exact toSpace_class a
  · exact goTrim_chain _ (collapse_chain _)
  · intro a ha
    have := goTrim_head _ _ ha
    intro he
    subst he
    exact absurd this (by decide)
  · intro a ha
    have := goTrim_revhead _ _ ha
    intro he
    subst he
    exact absurd this (by decide)

theorem sepSpaces_norm (z : Str)
    (hchars : ∀ c ∈ z, isLowerAlnum c = true ∨ c = ' ') :
    ∀ c ∈ sepSpaces z, isNormChar c = true := by
  intro c hc
  obtain ⟨a, ha, hca⟩ := List.mem_map.mp hc
  rcases hchars a ha with hal | hsp
  · have hne := alnum_ne_space a hal
    rw [← hca]
    simp only [hne, Bool.false_eq_true, if_false]
    simp [isNormChar, hal]
  · subst hsp
    rw [← hca]
    simp [isNormChar]

theorem normalize_single (s : Str) :
    normalize [s]
      = if goTrimSpace s = [] then [] else normalizeOne (goTrimSpace s) := by
  by_cases h : goTrimSpace s = []
  · rw [if_pos h]
    unfold normalize
    rw [show List.filterMap (fun input =>
        let t := goTrimSpace input
        if t = [] then none else some (normalizeOne t)) [s] = [] from by simp [h]]
    rfl
  · rw [if_neg h]
    unfold normalize
    rw [show List.filterMap (fun input =>
        let t := goTrimSpace input
        if t = [] then none else some (normalizeOne t)) [s]
        = [normalizeOne (goTrimSpace s)] from by simp [h]]
    rfl

theorem normalize_fix (z : Str)
    (hchars : ∀ c ∈ z, isLowerAlnum c = true ∨ c = ' ')
    (hchain : List.Chain' (fun a b => ¬(a = ' ' ∧ b = ' ')) z)
    (hhead : ∀ a, z.head? = some a → a ≠ ' ')
    (hrev : ∀ a, z.reverse.head? = some a → a ≠ ' ') :
    normalize [sepSpaces z] = sepSpaces z := by
  have hnorm : ∀ c ∈ sepSpaces z, isNormChar c = true := sepSpaces_norm z hchars
  have hnosp : ∀ c ∈ sepSpaces z, isGoSpace c = false := fun c hc =>
    isGoSpace_eq_false_of_norm c (hnorm c hc)
  have htrim : goTrimSpace (sepSpaces z) = sepSpaces z :=
    goTrim_eq_self _ (fun a ha => hnosp a (head?_mem_list ha))
      (fun a ha => hnosp a (List.mem_reverse.mp (head?_mem_list ha)))
  by_cases hz : sepSpaces z = []
  · rw [normalize_single, htrim, hz, if_pos rfl]
  · rw [normalize_single, htrim, if_neg hz]
    show sepSpaces (goTrimSpace (collapseSpaces
      ((((sepSpaces z).map goToLower).map foldAccent).map toSpaceNonAlnum)))
      = sepSpaces z
    rw [show (sepSpaces z).map goToLower = (sepSpaces z).map id from
      List.map_congr_left (fun a ha => goToLower_fix a (hnorm a ha)), List.map_id]
    rw [show (sepSpaces z).map foldAccent = (sepSpaces z).map id from
      List.map_congr_left (fun a ha => foldAccent_fix a (hnorm a ha)), List.map_id]
    rw [show (sepSpaces z).map toSpaceNonAlnum = z from ?_]
    · rw [collapse_eq_self z hchain]
      rw [goTrim_eq_self z ?_ ?_]
      · intro a ha
        rcases hchars a (head?_mem_list ha) with hal | hsp
        · exact isGoSpace_eq_false_of_norm a (by simp [isNormChar, hal])
        · exact absurd hsp (hhead a ha)
      · intro a ha
        rcases hchars a (List.mem_reverse.mp (head?_mem_list ha)) with hal | hsp
        · exact isGoSpace_eq_false_of_norm a (by simp [isNormChar, hal])
        · exact absurd hsp (hrev a ha)
    · unfold sepSpaces
      rw [List.map_map]
      rw [show z.map (toSpaceNonAlnum ∘ fun c => if c == ' ' then '-' else c)
          = z.map id from ?_, List.map_id]
      apply List.map_congr_left
      intro a ha
      rcases hchars a ha with hal | hsp
      · have hne := alnum_ne_space a hal
        simp only [Function.comp, hne, Bool.false_eq_true, if_false, id]
        unfold toSpaceNonAlnum
        rw [if_pos hal]
      · subst hsp
        simp only [Function.comp, id]
        decide

/-- C6: the filename normalizer of main.go is a pure function of its
input in this embedding — identical input yields identical output by
construction — and it is idempotent on printable inputs drawn from ASCII
and the handled accented-Latin characters:
`normalize [normalize [s]] = normalize [s]`. -/
theorem normalize_idempotent (s : Str)
    (hs : ∀ c ∈ s, handledChar c = true) :
    normalize [normalize [s]] = normalize [s] := by
  rw [normalize_single s]
  by_cases h : goTrimSpace s = []
  · rw [if_pos h]
    rfl
  · rw [if_neg h]
    obtain ⟨z, hz, hchars, hchain, hh, hr⟩ := normalizeOne_canonical (goTrimSpace s)
    rw [hz]
    exact normalize_fix z hchars hchain hh hr

theorem normalize_idempotent_witness :
    (∀ c ∈ str "  Ámate É Ñandú 42!  ", handledChar c = true) ∧
    normalize [normalize [str "  Ámate É Ñandú 42!  "]]
      = normalize [str "  Ámate É Ñandú 42!  "] :=
  ⟨by decide, normalize_idempotent _ (by decide)⟩

end Scavenger
